import Mathlib

set_option maxRecDepth 8000

/-!
Verification of the section key-share / threshold-signing manager and the
register client messaging layer of `sn_messaging`.

The register command/query layer (`src/client/register.rs`) is embedded
directly from the source.  The key-share manager (`src/node/section/section_keys.rs`)
provides only the data shapes (`SectionKeyShare`, `SectionKeysProvider`); its
operations (`set_pending`, `promote_pending`, `sign`, `current_share`, ...) and
the threshold-signature algorithm (`ThresholdSigner.sign_share` / `combine`)
are modelled from the specification, instantiating the BLS threshold scheme
with Shamir secret sharing over the field `ZMod 101` (partial signature
= secret share times message hash; combination = Lagrange interpolation at 0).
-/

/-! ## Register messaging layer (`src/client/register.rs`) -/

/-- Opaque network name, as used by the `xor_name` crate. -/
structure XorName where
  val : Nat
deriving DecidableEq

/-- `RegisterAddress` from `sn_data_types`: a public or private register
address, each carrying a name and a tag. -/
inductive Address where
  | pub (name : XorName) (tag : Nat)
  | priv (name : XorName) (tag : Nat)
deriving DecidableEq

/-- `RegisterAddress::name`. -/
def Address.name : Address → XorName
  | .pub n _ => n
  | .priv n _ => n

/-- `RegisterAddress::is_public`. -/
def Address.is_public : Address → Bool
  | .pub _ _ => true
  | .priv _ _ => false

/-- `PublicKey` from `sn_data_types` (opaque). -/
structure PublicKey where
  val : Nat
deriving DecidableEq

/-- A register entry (`Vec<u8>` payload, opaque). -/
structure Entry where
  bytes : List Nat
deriving DecidableEq

/-- `RegisterIndex` from `sn_data_types`. -/
inductive RIndex where
  | FromStart (n : Nat)
  | FromEnd (n : Nat)
deriving DecidableEq

/-- `RegisterUser` from `sn_data_types`. -/
inductive User where
  | Anyone
  | Key (pk : PublicKey)
deriving DecidableEq

/-- `Register` from `sn_data_types`, reduced to the observations the embedded
code makes of it: its address (hence its `name()`) and its `owner()`. -/
structure Register where
  address : Address
  ownerKey : PublicKey
deriving DecidableEq

/-- `Register::name`. -/
def Register.name (r : Register) : XorName := r.address.name

/-- `Register::owner`. -/
def Register.owner (r : Register) : PublicKey := r.ownerKey

/-- `RegisterOp` from `sn_data_types`, reduced to the observation the embedded
code makes of it: its `address` field. -/
structure RegisterOp where
  address : Address
deriving DecidableEq

/-- The client `Error` payload carried inside responses (opaque). -/
structure RegError where
  code : Nat
deriving DecidableEq

/-- Opaque register policy payload. -/
structure Policy where
  val : Nat
deriving DecidableEq

/-- Opaque user-permissions payload. -/
structure Permissions where
  val : Nat
deriving DecidableEq

instance {ε α : Type} [DecidableEq ε] [DecidableEq α] : DecidableEq (Except ε α) := fun x y =>
  match x, y with
  | .error e1, .error e2 =>
      if h : e1 = e2 then .isTrue (h ▸ rfl)
      else .isFalse (fun hc => h (Except.error.inj hc))
  | .error _, .ok _ => .isFalse (fun hc => Except.noConfusion hc)
  | .ok _, .error _ => .isFalse (fun hc => Except.noConfusion hc)
  | .ok a1, .ok a2 =>
      if h : a1 = a2 then .isTrue (h ▸ rfl)
      else .isFalse (fun hc => h (Except.ok.inj hc))

/-- Modelled from the spec: the repository's `QueryResponse` enum is declared
in the client module, outside the given source files; only its seven
register-read response variants, each carrying a `Result`, are needed here. -/
inductive QueryResponse where
  | GetRegister (res : Except RegError Register)
  | GetRegisterRange (res : Except RegError (List Entry))
  | GetRegisterLastEntry (res : Except RegError Entry)
  | GetRegisterPublicPolicy (res : Except RegError Policy)
  | GetRegisterPrivatePolicy (res : Except RegError Policy)
  | GetRegisterUserPermissions (res : Except RegError Permissions)
  | GetRegisterOwner (res : Except RegError PublicKey)
deriving DecidableEq

/-- Modelled from the spec: the repository's `DataAuthKind` enum is declared
outside the given source files; the spec's authorization classification is
public-read vs private-read vs write. -/
inductive DataAuthKind where
  | PublicRead
  | PrivateRead
  | Write
deriving DecidableEq

/-- Modelled from the spec: the repository's `AuthorisationKind` enum is
declared outside the given source files; only its `Data` case is used by the
register layer. -/
inductive AuthorisationKind where
  | Data (k : DataAuthKind)
deriving DecidableEq

/-- `RegisterRead` from `src/client/register.rs`. -/
inductive RegisterRead where
  | Get (address : Address)
  | GetRange (address : Address) (range : RIndex × RIndex)
  | GetLastEntry (address : Address)
  | GetPublicPolicy (address : Address)
  | GetPrivatePolicy (address : Address)
  | GetUserPermissions (address : Address) (user : User)
  | GetOwner (address : Address)
deriving DecidableEq

/-- `RegisterWrite` from `src/client/register.rs`. -/
inductive RegisterWrite where
  | New (data : Register)
  | Edit (op : RegisterOp)
  | Delete (address : Address)
deriving DecidableEq

namespace RegisterRead

/-- The address contained in a `RegisterRead` request (the variable bound by
the or-pattern of the source's `match`es). -/
def address : RegisterRead → Address
  | .Get a => a
  | .GetRange a _ => a
  | .GetLastEntry a => a
  | .GetPublicPolicy a => a
  | .GetPrivatePolicy a => a
  | .GetUserPermissions a _ => a
  | .GetOwner a => a

/-- `RegisterRead::error`. -/
def error (r : RegisterRead) (e : RegError) : QueryResponse :=
  match r with
  | .Get _ => .GetRegister (.error e)
  | .GetRange _ _ => .GetRegisterRange (.error e)
  | .GetLastEntry _ => .GetRegisterLastEntry (.error e)
  | .GetPublicPolicy _ => .GetRegisterPublicPolicy (.error e)
  | .GetPrivatePolicy _ => .GetRegisterPrivatePolicy (.error e)
  | .GetUserPermissions _ _ => .GetRegisterUserPermissions (.error e)
  | .GetOwner _ => .GetRegisterOwner (.error e)

/-- `RegisterRead::authorisation_kind`: all seven variants bind their address
and classify by `is_public`. -/
def authorisation_kind (r : RegisterRead) : AuthorisationKind :=
  if r.address.is_public then AuthorisationKind.Data DataAuthKind.PublicRead
  else AuthorisationKind.Data DataAuthKind.PrivateRead

/-- `RegisterRead::dst_address`. -/
def dst_address (r : RegisterRead) : XorName :=
  match r with
  | .Get a => a.name
  | .GetRange a _ => a.name
  | .GetLastEntry a => a.name
  | .GetPublicPolicy a => a.name
  | .GetPrivatePolicy a => a.name
  | .GetUserPermissions a _ => a.name
  | .GetOwner a => a.name

end RegisterRead

namespace RegisterWrite

/-- `RegisterWrite::authorisation_kind`. -/
def authorisation_kind (_w : RegisterWrite) : AuthorisationKind :=
  AuthorisationKind.Data DataAuthKind.Write

/-- `RegisterWrite::dst_address`. -/
def dst_address (w : RegisterWrite) : XorName :=
  match w with
  | .New data => data.name
  | .Delete address => address.name
  | .Edit op => op.address.name

/-- `RegisterWrite::owner`. -/
def owner : RegisterWrite → Option PublicKey
  | .New data => some data.owner
  | _ => none

end RegisterWrite

/-! ## Claims about the register layer -/

/-- C2: every `RegisterRead` is classified `Data PublicRead` when its
contained address is public and `Data PrivateRead` otherwise, uniformly over
all seven variants; every `RegisterWrite` is classified `Data Write`. -/
theorem register_authorisation_kind_spec :
    (∀ r : RegisterRead, r.authorisation_kind =
      if r.address.is_public then AuthorisationKind.Data DataAuthKind.PublicRead
      else AuthorisationKind.Data DataAuthKind.PrivateRead) ∧
    (∀ w : RegisterWrite,
      w.authorisation_kind = AuthorisationKind.Data DataAuthKind.Write) :=
  ⟨fun _r => rfl, fun _w => rfl⟩

/-- C9: `RegisterRead::error` wraps `Err(e)` in the `QueryResponse` variant
matching the request variant, for all seven variants. -/
theorem register_read_error_spec :
    (∀ (a : Address) (e : RegError),
      (RegisterRead.Get a).error e = QueryResponse.GetRegister (.error e)) ∧
    (∀ (a : Address) (rg : RIndex × RIndex) (e : RegError),
      (RegisterRead.GetRange a rg).error e = QueryResponse.GetRegisterRange (.error e)) ∧
    (∀ (a : Address) (e : RegError),
      (RegisterRead.GetLastEntry a).error e = QueryResponse.GetRegisterLastEntry (.error e)) ∧
    (∀ (a : Address) (e : RegError),
      (RegisterRead.GetPublicPolicy a).error e = QueryResponse.GetRegisterPublicPolicy (.error e)) ∧
    (∀ (a : Address) (e : RegError),
      (RegisterRead.GetPrivatePolicy a).error e = QueryResponse.GetRegisterPrivatePolicy (.error e)) ∧
    (∀ (a : Address) (u : User) (e : RegError),
      (RegisterRead.GetUserPermissions a u).error e
        = QueryResponse.GetRegisterUserPermissions (.error e)) ∧
    (∀ (a : Address) (e : RegError),
      (RegisterRead.GetOwner a).error e = QueryResponse.GetRegisterOwner (.error e)) :=
  ⟨fun _ _ => rfl, fun _ _ _ => rfl, fun _ _ => rfl, fun _ _ => rfl, fun _ _ => rfl,
   fun _ _ _ => rfl, fun _ _ => rfl⟩

/-- C10: `RegisterRead::dst_address` returns the name of the contained
address for all seven variants; `RegisterWrite::dst_address` returns the new
register's name for `New`, the target address's name for `Delete`, and the
operation's address's name for `Edit`. -/
theorem register_dst_address_spec :
    (∀ r : RegisterRead, r.dst_address = r.address.name) ∧
    (∀ data : Register, (RegisterWrite.New data).dst_address = data.name) ∧
    (∀ a : Address, (RegisterWrite.Delete a).dst_address = a.name) ∧
    (∀ op : RegisterOp, (RegisterWrite.Edit op).dst_address = op.address.name) :=
  ⟨fun r => by cases r <;> rfl, fun _ => rfl, fun _ => rfl, fun _ => rfl⟩

/-! ## Section key shares and threshold signing
(`src/node/section/section_keys.rs`)

The source file declares the data shapes only.  The BLS threshold scheme of
the `threshold_crypto` dependency is instantiated over the scalar field
`Fq = ZMod 101`, with the pairing collapsed: a signature by secret key `s` on
message `m` is `s * hash m`, and verification against a public key `pk`
checks `sig = pk * hash m`.  Secret shares are Shamir shares: evaluations of
the group polynomial at `index + 1`; combination is Lagrange interpolation at
`0`. -/

/-- The scalar field of the modelled BLS threshold scheme. -/
abbrev Fq : Type := ZMod 101

instance : Fact (Nat.Prime 101) := ⟨by norm_num⟩

/-- Modelled from the spec: `PublicKeySet` of the `threshold_crypto`
dependency, as the spec describes it — the group's public verification
material: the number of key holders (`size()`) and the commitment to the
group polynomial, from which the threshold, the combined public key and every
holder's public key share are derived. -/
structure PublicKeySet where
  size : Nat
  coeffs : List Fq
deriving DecidableEq

/-- Horner evaluation of a coefficient list (constant term first). -/
def evalPoly (coeffs : List Fq) (x : Fq) : Fq :=
  match coeffs with
  | [] => 0
  | a :: rest => a + x * evalPoly rest x

/-- The hash-to-group map of the collapsed BLS scheme. -/
def hashMsg (m : Nat) : Fq := (m : Fq)

/-- Structurally recursive power on `Fq` (kernel-reducible). -/
def fpow (a : Fq) : Nat → Fq
  | 0 => 1
  | n + 1 => a * fpow a n

/-- Field inverse on `Fq` computed by Fermat's little theorem,
kernel-reducible unlike `ZMod.inv`. -/
def finv (a : Fq) : Fq := fpow a 99

theorem fpow_eq (a : Fq) (n : Nat) : fpow a n = a ^ n := by
  induction n with
  | zero => simp [fpow]
  | succ k ih => rw [fpow, ih, pow_succ]; ring

theorem finv_eq (a : Fq) : finv a = a⁻¹ := by
  rcases eq_or_ne a 0 with h | h
  · subst h
    rw [finv, fpow_eq, inv_zero, zero_pow]
    norm_num
  · rw [finv, fpow_eq]
    refine (inv_eq_of_mul_eq_one_right ?_).symm
    have h100 : a ^ (100 : ℕ) = 1 := ZMod.pow_card_sub_one_eq_one h
    calc a * a ^ (99 : ℕ) = a ^ (100 : ℕ) := by ring
    _ = 1 := h100

/-- The evaluation point used for the holder at `index` (the scheme evaluates
the group polynomial at `index + 1`; `0` is reserved for the group secret). -/
def xcoord (i : Nat) : Fq := (i : Fq) + 1

namespace PublicKeySet

/-- Modelled from the spec: `threshold + 1` partial signatures are the
minimum needed to reconstruct a combined signature. -/
def threshold (pks : PublicKeySet) : Nat := pks.coeffs.length - 1

/-- The public key derived for the holder at index `i`. -/
def key_share (pks : PublicKeySet) (i : Nat) : Fq := evalPoly pks.coeffs (xcoord i)

/-- The group's combined public key. -/
def public_key (pks : PublicKeySet) : Fq := evalPoly pks.coeffs 0

end PublicKeySet

/-- BLS verification (collapsed pairing): `sig` is a valid signature on `m`
under public key `pk` iff `sig = pk * hash m`. -/
def verifySig (pk : Fq) (sig : Fq) (m : Nat) : Bool :=
  decide (sig = pk * hashMsg m)

/-- A partial signature at index `i` verifies against index `i`'s derived
public key. -/
def verifyShare (pks : PublicKeySet) (i : Nat) (sig : Fq) (m : Nat) : Bool :=
  verifySig (pks.key_share i) sig m

/-- `SectionKeyShare` from `src/node/section/section_keys.rs`: all the key
material needed to sign or combine signatures for the section key. -/
structure SectionKeyShare where
  public_key_set : PublicKeySet
  index : Nat
  secret_key_share : Fq
deriving DecidableEq

/-- `SectionKeysProvider` from `src/node/section/section_keys.rs`: the
current section keys plus the keys staged for the next section update. -/
structure SectionKeysProvider where
  current : Option SectionKeyShare
  pending : Option SectionKeyShare
deriving DecidableEq

/-- Modelled from the spec: the error kinds of the key-share manager
(`NoKeyShare`, `NoPendingShare`, `IndexOutOfRange`); the source file gives
only the data shapes. -/
inductive KeyError where
  | NoKeyShare
  | NoPendingShare
  | IndexOutOfRange
deriving DecidableEq

/-- Modelled from the spec: the error kinds of threshold combination
(`InsufficientShares`; `InvalidShare` reporting the offending index). -/
inductive CombineError where
  | InsufficientShares
  | InvalidShare (i : Nat)
deriving DecidableEq

namespace ThresholdSigner

/-- Modelled from the spec: `ThresholdSigner.sign_share` — a deterministic
partial signature over `m` from a key share's secret share. -/
def sign_share (s : SectionKeyShare) (m : Nat) : Fq :=
  s.secret_key_share * hashMsg m

/-- The Lagrange coefficient at node `xj` for interpolation at `0` over the
nodes `xs`: the product over the other nodes `xk` of `(xj - xk)⁻¹ * (0 - xk)`. -/
def lagCoeff (xs : List Fq) (xj : Fq) : Fq :=
  ((xs.filter (fun x => x ≠ xj)).map (fun xk => finv (xj - xk) * (0 - xk))).prod

/-- Lagrange interpolation at `0` of a list of (node, value) points. -/
def lagrange0 (pts : List (Fq × Fq)) : Fq :=
  (pts.map (fun e => e.2 * lagCoeff (pts.map Prod.fst) e.1)).sum

/-- Modelled from the spec: `ThresholdSigner.combine` — requires at least
`threshold + 1` entries (else `InsufficientShares`); requires every entry to
verify against its index's derived public key (else `InvalidShare` at the
first offending entry); on success interpolates `threshold + 1` of the
partial signatures at `0` to reconstruct the combined signature. -/
def combine (pks : PublicKeySet) (shares : List (Nat × Fq)) (m : Nat) :
    Except CombineError Fq :=
  if shares.length < pks.threshold + 1 then
    .error .InsufficientShares
  else
    match shares.find? (fun e => !(verifyShare pks e.1 e.2 m)) with
    | some e => .error (.InvalidShare e.1)
    | none =>
        .ok (lagrange0 ((shares.take (pks.threshold + 1)).map
          (fun e => (xcoord e.1, e.2))))

end ThresholdSigner

namespace SectionKeysProvider

/-- Modelled from the spec: `has_current_share` — true once a key generation
has completed for this node. -/
def has_current_share (p : SectionKeysProvider) : Bool :=
  p.current.isSome

/-- Modelled from the spec: `current_share` — the current share, or
`NoKeyShare` if none is set. -/
def current_share (p : SectionKeysProvider) : Except KeyError SectionKeyShare :=
  match p.current with
  | some s => .ok s
  | none => .error .NoKeyShare

/-- Modelled from the spec: `set_pending` — stages a freshly generated share
as pending, overwriting any prior pending share; rejects a share whose index
is out of range of its public key set. -/
def set_pending (p : SectionKeysProvider) (s : SectionKeyShare) :
    Except KeyError SectionKeysProvider :=
  if s.index < s.public_key_set.size then
    .ok { p with pending := some s }
  else
    .error .IndexOutOfRange

/-- Modelled from the spec: `promote_pending` — moves `pending` into
`current`, clearing `pending`; fails with `NoPendingShare` if none staged. -/
def promote_pending (p : SectionKeysProvider) :
    Except KeyError SectionKeysProvider :=
  match p.pending with
  | some s => .ok { current := some s, pending := none }
  | none => .error .NoPendingShare

/-- Modelled from the spec: `sign` — a partial signature over `m` using the
current share's secret share; fails with `NoKeyShare` if no current share. -/
def sign (p : SectionKeysProvider) (m : Nat) : Except KeyError Fq :=
  match p.current with
  | some s => .ok (ThresholdSigner.sign_share s m)
  | none => .error .NoKeyShare

/-- Modelled from the spec: `public_key_set` — the current generation's
verification material. -/
def public_key_set (p : SectionKeysProvider) : Except KeyError PublicKeySet :=
  match p.current with
  | some s => .ok s.public_key_set
  | none => .error .NoKeyShare

end SectionKeysProvider

/-- The shares held by a provider (current and pending slots). -/
def heldShares (p : SectionKeysProvider) : List SectionKeyShare :=
  p.current.toList ++ p.pending.toList

/-- The provider states reachable from the initial keyless state by the two
mutating operations. -/
inductive Reachable : SectionKeysProvider → Prop
  | init : Reachable { current := none, pending := none }
  | setp {p p2 : SectionKeysProvider} (s : SectionKeyShare) :
      Reachable p → SectionKeysProvider.set_pending p s = .ok p2 → Reachable p2
  | promo {p p2 : SectionKeysProvider} :
      Reachable p → SectionKeysProvider.promote_pending p = .ok p2 → Reachable p2

/-! ## Correctness of Lagrange recombination -/

open ThresholdSigner in
open Polynomial in
theorem lagCoeff_eq_basis (xs : List Fq) (x : Fq) (hnd : xs.Nodup) :
    lagCoeff xs x = (Lagrange.basis xs.toFinset id x).eval 0 := by
  classical
  unfold lagCoeff Lagrange.basis
  rw [Polynomial.eval_prod]
  rw [← List.prod_toFinset _ (List.Nodup.filter _ hnd)]
  have hset : (xs.filter (fun y => y ≠ x)).toFinset = xs.toFinset.erase x := by
    rw [List.toFinset_filter]
    simp [Finset.filter_ne']
  rw [hset]
  apply Finset.prod_congr rfl
  intro y hy
  have hyx : y ≠ x := (Finset.mem_erase.mp hy).1
  simp [Lagrange.basisDivisor, finv_eq]

open ThresholdSigner in
open Polynomial in
theorem lagrange0_eq_eval (g : Polynomial Fq) (pts : List (Fq × Fq))
    (hnd : (pts.map Prod.fst).Nodup)
    (hdeg : g.degree < (pts.length : WithBot ℕ))
    (hpts : ∀ e ∈ pts, e.2 = g.eval e.1) :
    lagrange0 pts = g.eval 0 := by
  classical
  have hcard : (pts.map Prod.fst).toFinset.card = pts.length := by
    rw [List.toFinset_card_of_nodup hnd, List.length_map]
  have hA : lagrange0 pts =
      ∑ x ∈ (pts.map Prod.fst).toFinset, g.eval x * lagCoeff (pts.map Prod.fst) x := by
    unfold lagrange0
    have h1 : pts.map (fun e => e.2 * lagCoeff (pts.map Prod.fst) e.1)
        = pts.map (fun e => g.eval e.1 * lagCoeff (pts.map Prod.fst) e.1) :=
      List.map_congr_left (fun e he => by rw [hpts e he])
    have h2 : pts.map (fun e => g.eval e.1 * lagCoeff (pts.map Prod.fst) e.1)
        = (pts.map Prod.fst).map (fun x => g.eval x * lagCoeff (pts.map Prod.fst) x) := by
      rw [List.map_map]
      rfl
    rw [h1, h2, ← List.sum_toFinset _ hnd]
  have hD : g = Lagrange.interpolate (pts.map Prod.fst).toFinset id fun i => g.eval i := by
    have hdeg2 : g.degree < (pts.map Prod.fst).toFinset.card := by
      rw [hcard]; exact hdeg
    exact Lagrange.eq_interpolate (Set.injOn_id _) hdeg2
  have hC : g.eval 0 =
      ∑ x ∈ (pts.map Prod.fst).toFinset,
        g.eval x * (Lagrange.basis (pts.map Prod.fst).toFinset id x).eval 0 := by
    conv_lhs => rw [hD]
    rw [Lagrange.interpolate_apply, Polynomial.eval_finset_sum]
    apply Finset.sum_congr rfl
    intro x _
    simp
  rw [hA, hC]
  apply Finset.sum_congr rfl
  intro x _
  rw [lagCoeff_eq_basis _ _ hnd]

/-- The polynomial denoted by a coefficient list (constant term first);
proof-side counterpart of `evalPoly`. -/
noncomputable def ofL : List Fq → Polynomial Fq
  | [] => 0
  | a :: r => Polynomial.C a + Polynomial.X * ofL r

theorem ofL_eval (l : List Fq) (x : Fq) : (ofL l).eval x = evalPoly l x := by
  induction l with
  | nil => simp [ofL, evalPoly]
  | cons a r ih => simp [ofL, evalPoly, ih]

theorem ofL_degree_lt (l : List Fq) : (ofL l).degree < (l.length : WithBot ℕ) := by
  induction l with
  | nil => simp [ofL]
  | cons a r ih =>
    have h1 : (Polynomial.C a).degree < ((r.length + 1 : ℕ) : WithBot ℕ) :=
      lt_of_le_of_lt Polynomial.degree_C_le (by exact_mod_cast Nat.succ_pos r.length)
    have h2 : (Polynomial.X * ofL r).degree < ((r.length + 1 : ℕ) : WithBot ℕ) := by
      rcases eq_or_ne (ofL r) 0 with h | h
      · rw [h, mul_zero, Polynomial.degree_zero]
        exact WithBot.bot_lt_coe _
      · rw [Polynomial.degree_mul, Polynomial.degree_X]
        have hcast : ((r.length + 1 : ℕ) : WithBot ℕ) = 1 + (r.length : WithBot ℕ) := by
          push_cast
          ring
        rw [hcast]
        exact WithBot.add_lt_add_left (by simp) ih
    calc (ofL (a :: r)).degree
        ≤ max (Polynomial.C a).degree (Polynomial.X * ofL r).degree :=
          Polynomial.degree_add_le _ _
    _ < _ := max_lt h1 h2

theorem xcoord_inj {i j : Nat} (hi : i < 100) (hj : j < 100)
    (h : xcoord i = xcoord j) : i = j := by
  unfold xcoord at h
  have h2 : (i : Fq) = (j : Fq) := by
    have := add_right_cancel h
    exact this
  have h3 := congrArg ZMod.val h2
  rwa [ZMod.val_natCast_of_lt (by omega), ZMod.val_natCast_of_lt (by omega)] at h3

/-- Shared helper: on a valid quorum — pairwise-distinct indices below 100, at
least `threshold + 1` entries, every entry verifying — `combine` succeeds with
the unique group signature `public_key * hash m`. -/
theorem combine_valid (pks : PublicKeySet) (shares : List (Nat × Fq)) (m : Nat)
    (hnd : (shares.map Prod.fst).Nodup)
    (hlen : pks.threshold + 1 ≤ shares.length)
    (hix : ∀ e ∈ shares, e.1 < 100)
    (hval : ∀ e ∈ shares, verifyShare pks e.1 e.2 m = true) :
    ThresholdSigner.combine pks shares m
      = Except.ok (pks.public_key * hashMsg m) := by
  classical
  unfold ThresholdSigner.combine
  rw [if_neg (Nat.not_lt.mpr hlen)]
  have hfind : shares.find? (fun e => !(verifyShare pks e.1 e.2 m)) = none := by
    rw [List.find?_eq_none]
    intro e he
    rw [hval e he]
    simp
  rw [hfind]
  set n := pks.threshold + 1 with hn
  set taken := shares.take n with htk
  have hsub : taken.Sublist shares := List.take_sublist n shares
  have htlen : taken.length = n := by
    rw [htk, List.length_take]
    omega
  have hndt : (taken.map Prod.fst).Nodup := by
    have : taken.map Prod.fst = (shares.map Prod.fst).take n := by
      rw [htk, List.map_take]
    rw [this]
    exact (List.take_sublist n (shares.map Prod.fst)).nodup hnd
  set pts := taken.map (fun e => (xcoord e.1, e.2)) with hpts
  have hfst : pts.map Prod.fst = (taken.map Prod.fst).map xcoord := by
    rw [hpts, List.map_map, List.map_map]
    rfl
  have hmem : ∀ e ∈ taken, e ∈ shares := fun e he => hsub.subset he
  have hndx : (pts.map Prod.fst).Nodup := by
    rw [hfst]
    refine List.Nodup.map_on ?_ hndt
    intro i hi j hj hij
    have hi' : i < 100 := by
      obtain ⟨e, he, rfl⟩ := List.mem_map.mp hi
      exact hix e (hmem e he)
    have hj' : j < 100 := by
      obtain ⟨e, he, rfl⟩ := List.mem_map.mp hj
      exact hix e (hmem e he)
    exact xcoord_inj hi' hj' hij
  set g := ofL pks.coeffs * Polynomial.C (hashMsg m) with hg
  have hdeg : g.degree < (pts.length : WithBot ℕ) := by
    have hlen2 : pts.length = n := by
      rw [hpts, List.length_map, htlen]
    rw [hlen2]
    have hd1 : g.degree ≤ (ofL pks.coeffs).degree := by
      calc g.degree ≤ (ofL pks.coeffs).degree + (Polynomial.C (hashMsg m)).degree :=
            Polynomial.degree_mul_le _ _
      _ ≤ (ofL pks.coeffs).degree + 0 := by
            exact add_le_add_left Polynomial.degree_C_le _
      _ = (ofL pks.coeffs).degree := add_zero _
    have hd2 : (ofL pks.coeffs).degree < (pks.coeffs.length : WithBot ℕ) :=
      ofL_degree_lt pks.coeffs
    have hd3 : (pks.coeffs.length : WithBot ℕ) ≤ (n : WithBot ℕ) := by
      have : pks.coeffs.length ≤ n := by
        rw [hn]
        unfold PublicKeySet.threshold
        omega
      exact_mod_cast this
    exact lt_of_le_of_lt hd1 (lt_of_lt_of_le hd2 hd3)
  have hon : ∀ e ∈ pts, e.2 = g.eval e.1 := by
    intro e he
    obtain ⟨e0, he0, rfl⟩ := List.mem_map.mp he
    have hv := hval e0 (hmem e0 he0)
    unfold verifyShare verifySig at hv
    have hv2 : e0.2 = pks.key_share e0.1 * hashMsg m := of_decide_eq_true hv
    rw [hg]
    simp only [Polynomial.eval_mul, Polynomial.eval_C, ofL_eval]
    exact hv2
  have hres := lagrange0_eq_eval g pts hndx hdeg hon
  rw [hres, hg]
  simp only [Polynomial.eval_mul, Polynomial.eval_C, ofL_eval]
  rfl

/-! ## Concrete instances: a 3-of-5 section (threshold 2, 5 holders),
group polynomial `f(x) = 5 + 3x + 2x²`, message `7`.  The holder at index `i`
holds `f(i + 1)`; its partial signature on message `7` is `f(i + 1) * 7`. -/

def pksW : PublicKeySet := { size := 5, coeffs := [5, 3, 2] }

def share0W : SectionKeyShare :=
  { public_key_set := pksW, index := 0, secret_key_share := 10 }

def share1W : SectionKeyShare :=
  { public_key_set := pksW, index := 1, secret_key_share := 19 }

def sBadW : SectionKeyShare :=
  { public_key_set := pksW, index := 5, secret_key_share := 0 }

def pNoneW : SectionKeysProvider := { current := none, pending := none }

def pCurW : SectionKeysProvider := { current := some share0W, pending := none }

def pPendW : SectionKeysProvider := { current := none, pending := some share0W }

def pPend2W : SectionKeysProvider := { current := none, pending := some share1W }

def sharesW : List (Nat × Fq) := [(0, 70), (2, 22), (4, 86)]

def sharesAltW : List (Nat × Fq) := [(4, 86), (1, 32), (0, 70)]

def sharesTwoW : List (Nat × Fq) := [(0, 70), (2, 22)]

def tamperedW : List (Nat × Fq) := [(0, 70), (2, 22), (4, 87)]

def badSharesW : List (Nat × Fq) := [(0, 99)]

/-! ## Claims about the threshold signer -/

/-- C1: for every message and every mapping of partial signatures with at
least `threshold + 1` distinct-index entries (indices in the model's range),
each verifying against its index's derived public key, `combine` succeeds and
the combined signature verifies against the group's combined public key; and
for every mapping with `threshold` or fewer entries, `combine` fails with
`InsufficientShares` regardless of the total number of key holders. -/
theorem combine_threshold_spec :
    (∀ (pks : PublicKeySet) (shares : List (Nat × Fq)) (m : Nat),
      (shares.map Prod.fst).Nodup →
      (∀ e ∈ shares, e.1 < 100) →
      pks.threshold + 1 ≤ shares.length →
      (∀ e ∈ shares, verifyShare pks e.1 e.2 m = true) →
      ∃ sig, ThresholdSigner.combine pks shares m = Except.ok sig ∧
        verifySig pks.public_key sig m = true) ∧
    (∀ (pks : PublicKeySet) (shares : List (Nat × Fq)) (m : Nat),
      (shares.map Prod.fst).Nodup →
      shares.length ≤ pks.threshold →
      ThresholdSigner.combine pks shares m
        = Except.error CombineError.InsufficientShares) := by
  constructor
  · intro pks shares m hnd hix hlen hval
    refine ⟨pks.public_key * hashMsg m, combine_valid pks shares m hnd hlen hix hval, ?_⟩
    unfold verifySig
    simp
  · intro pks shares m _hnd hlen
    unfold ThresholdSigner.combine
    rw [if_pos (by omega)]

theorem combine_threshold_spec_witness :
    ((sharesW.map Prod.fst).Nodup ∧ (∀ e ∈ sharesW, e.1 < 100) ∧
      pksW.threshold + 1 ≤ sharesW.length ∧
      (∀ e ∈ sharesW, verifyShare pksW e.1 e.2 7 = true)) ∧
    (∃ sig, ThresholdSigner.combine pksW sharesW 7 = Except.ok sig ∧
      verifySig pksW.public_key sig 7 = true) ∧
    ((sharesTwoW.map Prod.fst).Nodup ∧ sharesTwoW.length ≤ pksW.threshold) ∧
    ThresholdSigner.combine pksW sharesTwoW 7
      = Except.error CombineError.InsufficientShares :=
  ⟨⟨by decide, by decide, by decide, by decide⟩,
   combine_threshold_spec.1 pksW sharesW 7 (by decide) (by decide) (by decide) (by decide),
   ⟨by decide, by decide⟩,
   combine_threshold_spec.2 pksW sharesTwoW 7 (by decide) (by decide)⟩

/-- C6: for a fixed message and key generation, `combine` yields the same
combined signature on any two valid quorums of at least `threshold + 1`
verifying entries — independent of which member indices participate and of
the order of supply (calling it twice on the same quorum is the special case
of equal arguments). -/
theorem combine_quorum_independent :
    ∀ (pks : PublicKeySet) (s1 s2 : List (Nat × Fq)) (m : Nat),
      (s1.map Prod.fst).Nodup → (∀ e ∈ s1, e.1 < 100) →
      pks.threshold + 1 ≤ s1.length →
      (∀ e ∈ s1, verifyShare pks e.1 e.2 m = true) →
      (s2.map Prod.fst).Nodup → (∀ e ∈ s2, e.1 < 100) →
      pks.threshold + 1 ≤ s2.length →
      (∀ e ∈ s2, verifyShare pks e.1 e.2 m = true) →
      ThresholdSigner.combine pks s1 m = ThresholdSigner.combine pks s2 m := by
  intro pks s1 s2 m hnd1 hix1 hlen1 hval1 hnd2 hix2 hlen2 hval2
  rw [combine_valid pks s1 m hnd1 hlen1 hix1 hval1,
    combine_valid pks s2 m hnd2 hlen2 hix2 hval2]

theorem combine_quorum_independent_witness :
    ((sharesW.map Prod.fst).Nodup ∧ (∀ e ∈ sharesW, e.1 < 100) ∧
      pksW.threshold + 1 ≤ sharesW.length ∧
      (∀ e ∈ sharesW, verifyShare pksW e.1 e.2 7 = true)) ∧
    ((sharesAltW.map Prod.fst).Nodup ∧ (∀ e ∈ sharesAltW, e.1 < 100) ∧
      pksW.threshold + 1 ≤ sharesAltW.length ∧
      (∀ e ∈ sharesAltW, verifyShare pksW e.1 e.2 7 = true)) ∧
    ThresholdSigner.combine pksW sharesW 7 = ThresholdSigner.combine pksW sharesAltW 7 :=
  ⟨⟨by decide, by decide, by decide, by decide⟩,
   ⟨by decide, by decide, by decide, by decide⟩,
   combine_quorum_independent pksW sharesW sharesAltW 7 (by decide) (by decide)
     (by decide) (by decide) (by decide) (by decide) (by decide) (by decide)⟩

/-- C5 (as frozen) is false: a mapping containing a non-verifying entry but
with `threshold` or fewer entries fails with `InsufficientShares`, not with
`InvalidShare` at that entry's index. -/
theorem combine_invalid_counterexample :
    verifyShare pksW 0 99 7 = false ∧
    ThresholdSigner.combine pksW badSharesW 7
      = Except.error CombineError.InsufficientShares ∧
    ThresholdSigner.combine pksW badSharesW 7
      ≠ Except.error (CombineError.InvalidShare 0) ∧
    ∀ sig : Fq, ThresholdSigner.combine pksW badSharesW 7 ≠ Except.ok sig := by
  decide

/-- C5 (amended): for every mapping with at least `threshold + 1` entries in
which some entry does not verify against its index's derived public key,
`combine` fails with `InvalidShare` reporting the index of a non-verifying
entry; and for every mapping containing a non-verifying entry — of any size —
`combine` never returns a successful combined signature. -/
theorem combine_invalid_spec :
    (∀ (pks : PublicKeySet) (shares : List (Nat × Fq)) (m : Nat),
      pks.threshold + 1 ≤ shares.length →
      (∃ e ∈ shares, verifyShare pks e.1 e.2 m = false) →
      ∃ e ∈ shares, verifyShare pks e.1 e.2 m = false ∧
        ThresholdSigner.combine pks shares m
          = Except.error (CombineError.InvalidShare e.1)) ∧
    (∀ (pks : PublicKeySet) (shares : List (Nat × Fq)) (m : Nat) (sig : Fq),
      (∃ e ∈ shares, verifyShare pks e.1 e.2 m = false) →
      ThresholdSigner.combine pks shares m ≠ Except.ok sig) := by
  constructor
  · intro pks shares m hlen hbad
    have hsome : (shares.find? (fun e => !(verifyShare pks e.1 e.2 m))).isSome := by
      rw [List.find?_isSome]
      obtain ⟨e, he, hv⟩ := hbad
      exact ⟨e, he, by rw [hv]; rfl⟩
    obtain ⟨e, hfe⟩ := Option.isSome_iff_exists.mp hsome
    refine ⟨e, List.mem_of_find?_eq_some hfe, ?_, ?_⟩
    · have hp := List.find?_some hfe
      simpa using hp
    · unfold ThresholdSigner.combine
      rw [if_neg (Nat.not_lt.mpr hlen), hfe]
  · intro pks shares m sig hbad hok
    obtain ⟨e, he, hv⟩ := hbad
    unfold ThresholdSigner.combine at hok
    by_cases hlen : shares.length < pks.threshold + 1
    · rw [if_pos hlen] at hok
      cases hok
    · rw [if_neg hlen] at hok
      cases hfind : shares.find? (fun e => !(verifyShare pks e.1 e.2 m)) with
      | some e2 => rw [hfind] at hok; cases hok
      | none =>
          have hall := List.find?_eq_none.mp hfind e he
          exact hall (by rw [hv]; rfl)

theorem combine_invalid_spec_witness :
    (pksW.threshold + 1 ≤ tamperedW.length ∧
      (∃ e ∈ tamperedW, verifyShare pksW e.1 e.2 7 = false)) ∧
    (∃ e ∈ tamperedW, verifyShare pksW e.1 e.2 7 = false ∧
      ThresholdSigner.combine pksW tamperedW 7
        = Except.error (CombineError.InvalidShare e.1)) ∧
    ThresholdSigner.combine pksW tamperedW 7 ≠ Except.ok 35 :=
  ⟨⟨by decide, by decide⟩,
   combine_invalid_spec.1 pksW tamperedW 7 (by decide) (by decide),
   combine_invalid_spec.2 pksW tamperedW 7 35 (by decide)⟩

/-! ## Claims about the key-share provider -/

/-- C3: for every valid share (index within its public key set's range),
`set_pending` then immediately `promote_pending` succeeds, after which
`current_share` returns that exact share, `pending` is cleared and
`has_current_share` is true. -/
theorem set_promote_spec :
    ∀ (p : SectionKeysProvider) (s : SectionKeyShare),
      s.index < s.public_key_set.size →
      ∃ p1 p2, SectionKeysProvider.set_pending p s = Except.ok p1 ∧
        SectionKeysProvider.promote_pending p1 = Except.ok p2 ∧
        SectionKeysProvider.current_share p2 = Except.ok s ∧
        p2.pending = none ∧
        SectionKeysProvider.has_current_share p2 = true := by
  intro p s h
  refine ⟨{ p with pending := some s }, { current := some s, pending := none },
    ?_, rfl, rfl, rfl, rfl⟩
  unfold SectionKeysProvider.set_pending
  rw [if_pos h]

theorem set_promote_spec_witness :
    share0W.index < share0W.public_key_set.size ∧
    (∃ p1 p2, SectionKeysProvider.set_pending pNoneW share0W = Except.ok p1 ∧
      SectionKeysProvider.promote_pending p1 = Except.ok p2 ∧
      SectionKeysProvider.current_share p2 = Except.ok share0W ∧
      p2.pending = none ∧
      SectionKeysProvider.has_current_share p2 = true) :=
  ⟨by decide, set_promote_spec pNoneW share0W (by decide)⟩

/-- C4: `sign` fails with `NoKeyShare` exactly when the provider has no
current share; when a current share exists and is consistent with its public
key set (its secret share is the group polynomial's evaluation at its index's
node), `sign` succeeds and the partial signature verifies against the public
key derived for the current share's index.  `sign` is a pure function of the
provider: it returns only the signature and no updated state. -/
theorem sign_spec :
    (∀ (p : SectionKeysProvider) (m : Nat),
      SectionKeysProvider.sign p m = Except.error KeyError.NoKeyShare ↔
        p.current = none) ∧
    (∀ (p : SectionKeysProvider) (s : SectionKeyShare) (m : Nat),
      p.current = some s →
      s.secret_key_share = evalPoly s.public_key_set.coeffs (xcoord s.index) →
      ∃ σ, SectionKeysProvider.sign p m = Except.ok σ ∧
        verifyShare s.public_key_set s.index σ m = true) := by
  constructor
  · intro p m
    cases hc : p.current with
    | none => simp [SectionKeysProvider.sign, hc]
    | some s => simp [SectionKeysProvider.sign, hc]
  · intro p s m hc hcons
    refine ⟨ThresholdSigner.sign_share s m, ?_, ?_⟩
    · unfold SectionKeysProvider.sign
      rw [hc]
    · unfold verifyShare verifySig ThresholdSigner.sign_share PublicKeySet.key_share
      rw [hcons]
      simp

theorem sign_spec_witness :
    (SectionKeysProvider.sign pNoneW 7 = Except.error KeyError.NoKeyShare ↔
      pNoneW.current = none) ∧
    pCurW.current = some share0W ∧
    share0W.secret_key_share
      = evalPoly share0W.public_key_set.coeffs (xcoord share0W.index) ∧
    (∃ σ, SectionKeysProvider.sign pCurW 7 = Except.ok σ ∧
      verifyShare share0W.public_key_set share0W.index σ 7 = true) :=
  ⟨sign_spec.1 pNoneW 7, rfl, by decide,
   sign_spec.2 pCurW share0W 7 rfl (by decide)⟩

/-- Shared helper: every state reachable from the keyless initial state holds
only shares whose index is within their public key set's range. -/
theorem reachable_shares_in_range {p : SectionKeysProvider} (hr : Reachable p) :
    ∀ s ∈ heldShares p, s.index < s.public_key_set.size := by
  induction hr with
  | init =>
      intro s hs
      simp [heldShares] at hs
  | @setp p1 p2 s0 _hp hok ih =>
      intro s hs
      unfold SectionKeysProvider.set_pending at hok
      by_cases hidx : s0.index < s0.public_key_set.size
      · rw [if_pos hidx] at hok
        injection hok with hok2
        subst hok2
        simp only [heldShares, List.mem_append, Option.mem_toList, Option.toList_some,
          List.mem_singleton] at hs
        rcases hs with hs | hs
        · exact ih s (by simp [heldShares, hs])
        · subst hs
          exact hidx
      · rw [if_neg hidx] at hok
        cases hok
  | @promo p1 p2 _hp hok ih =>
      intro s hs
      unfold SectionKeysProvider.promote_pending at hok
      cases hpend : p1.pending with
      | none =>
          rw [hpend] at hok
          cases hok
      | some s1 =>
          rw [hpend] at hok
          injection hok with hok2
          subst hok2
          have hs1 : s = s1 := by
            simpa [heldShares] using hs
          subst hs1
          exact ih s (by simp [heldShares, hpend])

/-- C7: `set_pending` rejects a share whose index is at or beyond its public
key set's size with `IndexOutOfRange`, and consequently every share ever held
in a reachable provider's `current` or `pending` slot has an in-range index. -/
theorem index_range_spec :
    (∀ (p : SectionKeysProvider) (s : SectionKeyShare),
      s.public_key_set.size ≤ s.index →
      SectionKeysProvider.set_pending p s = Except.error KeyError.IndexOutOfRange) ∧
    (∀ p : SectionKeysProvider, Reachable p →
      ∀ s ∈ heldShares p, s.index < s.public_key_set.size) := by
  constructor
  · intro p s h
    unfold SectionKeysProvider.set_pending
    rw [if_neg (Nat.not_lt.mpr h)]
  · intro p hr
    exact reachable_shares_in_range hr

theorem index_range_spec_witness :
    sBadW.public_key_set.size ≤ sBadW.index ∧
    SectionKeysProvider.set_pending pNoneW sBadW
      = Except.error KeyError.IndexOutOfRange ∧
    share0W.index < share0W.public_key_set.size :=
  ⟨by decide,
   index_range_spec.1 pNoneW sBadW (by decide),
   index_range_spec.2 pCurW
     (Reachable.promo (Reachable.setp share0W Reachable.init rfl) rfl)
     share0W (by simp [heldShares, pCurW])⟩

/-- C8: a provider holds at most two key-share generations (the optional
`current` and the optional `pending` slot), and `set_pending` while a pending
share exists replaces only the pending share and leaves `current` untouched,
so at most one pending share exists at a time. -/
theorem dual_slot_spec :
    (∀ p : SectionKeysProvider, (heldShares p).length ≤ 2) ∧
    (∀ (p : SectionKeysProvider) (s0 snew : SectionKeyShare) (p2 : SectionKeysProvider),
      p.pending = some s0 →
      SectionKeysProvider.set_pending p snew = Except.ok p2 →
      p2.pending = some snew ∧ p2.current = p.current) := by
  constructor
  · intro p
    unfold heldShares
    rw [List.length_append]
    have h1 : p.current.toList.length ≤ 1 := by cases p.current <;> simp
    have h2 : p.pending.toList.length ≤ 1 := by cases p.pending <;> simp
    omega
  · intro p s0 snew p2 _hpend hok
    unfold SectionKeysProvider.set_pending at hok
    by_cases hidx : snew.index < snew.public_key_set.size
    · rw [if_pos hidx] at hok
      injection hok with hok2
      subst hok2
      exact ⟨rfl, rfl⟩
    · rw [if_neg hidx] at hok
      cases hok

theorem dual_slot_spec_witness :
    (heldShares pPendW).length ≤ 2 ∧
    pPendW.pending = some share0W ∧
    SectionKeysProvider.set_pending pPendW share1W = Except.ok pPend2W ∧
    pPend2W.pending = some share1W ∧ pPend2W.current = pPendW.current :=
  ⟨dual_slot_spec.1 pPendW, rfl, rfl,
   dual_slot_spec.2 pPendW share0W share1W pPend2W rfl rfl⟩
